import Mathlib

/-!
Shallow embedding of the diff-processing core of git-log-doc:
the extractor and truncator of `src/commit_processor.py` (method
`_process_diff`), the two side-by-side aligners of
`src/diff_visualizer.py` and `src/html_diff_renderer.py` (method
`_prepare_side_by_side_diff`), and the line-number counters of both
renderers.  Python strings are modelled as `List Char` (a Python `str`
is a sequence of code points), byte strings as `List Nat`.
-/

set_option maxHeartbeats 1000000
set_option maxRecDepth 100000

namespace GitLogDoc

/-- Tag of a diff line record or display cell: the value of the
Python dict key `type`, one of
`add`, `delete`, `hunk`, `truncated`, `context`, `empty`. -/
inductive Kind where
  | add
  | delete
  | hunk
  | truncated
  | context
  | empty
deriving DecidableEq, Repr

/-- One record of `diff_content`, or one display cell: the Python dict
with keys `type` and `content`. -/
structure Line where
  type : Kind
  content : List Char
deriving DecidableEq, Repr

/-- Padding cell `dict(type=empty, content=empty-string)` used by the
aligners. -/
def emptyLine : Line := ⟨Kind.empty, []⟩

/-- Classification loop of `CommitProcessor._process_diff`
(`commit_processor.py` lines 119-128): iterate over the decoded text
lines, counting insertions and deletions and collecting the
`line_changes` records.  Returns `(insertions, deletions, line_changes)`. -/
def processLines : List (List Char) → Nat × Nat × List Line
  | [] => (0, 0, [])
  | line :: rest =>
    let r := processLines rest
    if ['+'].isPrefixOf line && !(['+', '+', '+'].isPrefixOf line) then
      (r.1 + 1, r.2.1, ⟨Kind.add, line.drop 1⟩ :: r.2.2)
    else if ['-'].isPrefixOf line && !(['-', '-', '-'].isPrefixOf line) then
      (r.1, r.2.1 + 1, ⟨Kind.delete, line.drop 1⟩ :: r.2.2)
    else if ['@', '@'].isPrefixOf line then
      (r.1, r.2.1, ⟨Kind.hunk, line⟩ :: r.2.2)
    else
      (r.1, r.2.1, r.2.2)

/-- Content of the synthetic truncation marker,
the Python f-string `... N lines truncated ...`. -/
def truncatedMsg (n : Nat) : List Char :=
  "... ".data ++ (Nat.repr n).data ++ " lines truncated ...".data

/-- Truncation step of `CommitProcessor._process_diff`
(`commit_processor.py` lines 130-135): if more than 100 records were
collected, keep the first 50, one synthetic `truncated` record, and
the last 50. -/
def truncateLines (lcs : List Line) : List Line :=
  if lcs.length > 100 then
    lcs.take 50 ++ ⟨Kind.truncated, truncatedMsg (lcs.length - 100)⟩ :: lcs.drop (lcs.length - 50)
  else
    lcs

/-- Whole record pipeline of `CommitProcessor._process_diff` for one
file, starting from the decoded text lines: classification followed by
truncation.  Returns `(insertions, deletions, diff_content)`. -/
def processDiff (lines : List (List Char)) : Nat × Nat × List Line :=
  let r := processLines lines
  (r.1, r.2.1, truncateLines r.2.2)

/-- Side-by-side aligner `DiffVisualizer._prepare_side_by_side_diff`
(`diff_visualizer.py` lines 192-243).  Walks the record list; a `hunk`
record is replicated to both sides; a run of `delete` records followed
by a run of `add` records is paired positionally with `empty` padding;
a standalone `add` pairs with `empty` on the left; anything else
(including a `truncated` record, which this implementation does not
special-case) becomes a `context` cell on both sides.  Returns
`(left_lines, right_lines)`. -/
def alignVis : List Line → List Line × List Line
  | [] => ([], [])
  | l :: rest =>
    if l.type = Kind.hunk then
      let (L, R) := alignVis rest
      (l :: L, l :: R)
    else if l.type = Kind.delete then
      let dblock := l :: rest.takeWhile (fun x => x.type == Kind.delete)
      let rest1 := rest.dropWhile (fun x => x.type == Kind.delete)
      let ablock := rest1.takeWhile (fun x => x.type == Kind.add)
      let rest2 := rest1.dropWhile (fun x => x.type == Kind.add)
      let n := max dblock.length ablock.length
      let (L, R) := alignVis rest2
      ((List.range n).map (fun j => dblock.getD j emptyLine) ++ L,
       (List.range n).map (fun j => ablock.getD j emptyLine) ++ R)
    else if l.type = Kind.add then
      let (L, R) := alignVis rest
      (emptyLine :: L, l :: R)
    else
      let (L, R) := alignVis rest
      (⟨Kind.context, l.content⟩ :: L, ⟨Kind.context, l.content⟩ :: R)
termination_by l => l.length
decreasing_by
  all_goals simp
  · have h1 := (List.dropWhile_sublist
      (l := List.dropWhile (fun x => x.type == Kind.delete) rest)
      (fun x => x.type == Kind.add)).length_le
    have h2 := (List.dropWhile_sublist (l := rest)
      (fun x => x.type == Kind.delete)).length_le
    omega

/-- Side-by-side aligner `HTMLDiffRenderer._prepare_side_by_side_diff`
(`html_diff_renderer.py` lines 223-278).  Identical to the visualizer
aligner except that a `truncated` record is replicated to both sides
with its kind preserved. -/
def alignHtml : List Line → List Line × List Line
  | [] => ([], [])
  | l :: rest =>
    if l.type = Kind.hunk then
      let (L, R) := alignHtml rest
      (l :: L, l :: R)
    else if l.type = Kind.delete then
      let dblock := l :: rest.takeWhile (fun x => x.type == Kind.delete)
      let rest1 := rest.dropWhile (fun x => x.type == Kind.delete)
      let ablock := rest1.takeWhile (fun x => x.type == Kind.add)
      let rest2 := rest1.dropWhile (fun x => x.type == Kind.add)
      let n := max dblock.length ablock.length
      let (L, R) := alignHtml rest2
      ((List.range n).map (fun j => dblock.getD j emptyLine) ++ L,
       (List.range n).map (fun j => ablock.getD j emptyLine) ++ R)
    else if l.type = Kind.add then
      let (L, R) := alignHtml rest
      (emptyLine :: L, l :: R)
    else if l.type = Kind.truncated then
      let (L, R) := alignHtml rest
      (l :: L, l :: R)
    else
      let (L, R) := alignHtml rest
      (⟨Kind.context, l.content⟩ :: L, ⟨Kind.context, l.content⟩ :: R)
termination_by l => l.length
decreasing_by
  all_goals simp
  · have h1 := (List.dropWhile_sublist
      (l := List.dropWhile (fun x => x.type == Kind.delete) rest)
      (fun x => x.type == Kind.add)).length_le
    have h2 := (List.dropWhile_sublist (l := rest)
      (fun x => x.type == Kind.delete)).length_le
    omega

/-- Aligned row sequence the visualizer draws for one file
(`diff_visualizer.py` lines 124-147): the two aligned cell sequences
of `_prepare_side_by_side_diff` paired positionally, capped at
`max_lines = min(50, ...)` rows. -/
def visRows (dc : List Line) : List (Line × Line) :=
  ((alignVis dc).1.zip (alignVis dc).2).take 50

/-- Aligned row sequence the HTML renderer emits for one file
(`html_diff_renderer.py` lines 153-172): the two aligned cell
sequences of `_prepare_side_by_side_diff` paired positionally. -/
def htmlRows (dc : List Line) : List (Line × Line) :=
  (alignHtml dc).1.zip (alignHtml dc).2

/-- Line-number trace of the visualizer drawing loop
(`diff_visualizer.py` lines 142-160 with `_draw_github_diff_line`
lines 291-308): for each aligned row, the displayed left and right
line numbers (`none` for an `empty` cell, which displays nothing, and
for a `hunk` cell, which displays dots instead of a number), starting
from counters `ln`, `rn`; the left counter is incremented after any
left cell whose type is neither `empty` nor `add`, the right counter
after any right cell whose type is neither `empty` nor `delete`. -/
def visNumberRows : List (Line × Line) → Nat → Nat → List (Option Nat × Option Nat)
  | [], _, _ => []
  | (l, r) :: rest, ln, rn =>
    let leftNo : Option Nat :=
      if l.type = Kind.empty then none else if l.type = Kind.hunk then none else some ln
    let rightNo : Option Nat :=
      if r.type = Kind.empty then none else if r.type = Kind.hunk then none else some rn
    let ln2 := if l.type ≠ Kind.empty ∧ l.type ≠ Kind.add then ln + 1 else ln
    let rn2 := if r.type ≠ Kind.empty ∧ r.type ≠ Kind.delete then rn + 1 else rn
    (leftNo, rightNo) :: visNumberRows rest ln2 rn2

/-- Line-number trace of the HTML rendering loop
(`html_diff_renderer.py` lines 170-206): a row containing a `hunk`
cell on either side is rendered as a hunk header with no line numbers
and no counter change; otherwise each side displays and then
increments its counter exactly when its cell is not `empty`. -/
def htmlNumberRows : List (Line × Line) → Nat → Nat → List (Option Nat × Option Nat)
  | [], _, _ => []
  | (l, r) :: rest, ln, rn =>
    if l.type = Kind.hunk ∨ r.type = Kind.hunk then
      (none, none) :: htmlNumberRows rest ln rn
    else
      let leftNo : Option Nat := if l.type ≠ Kind.empty then some ln else none
      let ln2 := if l.type ≠ Kind.empty then ln + 1 else ln
      let rightNo : Option Nat := if r.type ≠ Kind.empty then some rn else none
      let rn2 := if r.type ≠ Kind.empty then rn + 1 else rn
      (leftNo, rightNo) :: htmlNumberRows rest ln2 rn2

/-- Sequence of displayed left line numbers of a number trace. -/
def leftNums (l : List (Option Nat × Option Nat)) : List Nat :=
  l.filterMap (fun p => p.1)

/-- Sequence of displayed right line numbers of a number trace. -/
def rightNums (l : List (Option Nat × Option Nat)) : List Nat :=
  l.filterMap (fun p => p.2)

/-- Predicate of the claimed line-number monotonicity: each element is
exactly one more than its predecessor. -/
def stepByOne : List Nat → Bool
  | a :: b :: t => (b == a + 1) && stepByOne (b :: t)
  | _ => true

/-- Predicate of strict monotonicity: each element is greater than its
predecessor. -/
def strictIncr : List Nat → Bool
  | a :: b :: t => (decide (a < b)) && strictIncr (b :: t)
  | _ => true

/-- One step of the UTF-8 decoder of the Python call
`bytes.decode(utf-8, errors=ignore)` in `commit_processor.py` line
117: try to parse one valid UTF-8 sequence starting at byte `b0` (per
the standard validity table: surrogates and overlong forms rejected);
on success return its code point and the remaining bytes, on failure
return no code point (the byte `b0` is dropped, as the ignore error
handler does) and the bytes after `b0`. -/
def utf8Step (b0 : Nat) (rest : List Nat) : Option Nat × List Nat :=
  if b0 < 0x80 then
    (some b0, rest)
  else if 0xC2 ≤ b0 ∧ b0 ≤ 0xDF then
    match rest with
    | b1 :: rest1 =>
      if 0x80 ≤ b1 ∧ b1 ≤ 0xBF then
        (some ((b0 - 0xC0) * 0x40 + (b1 - 0x80)), rest1)
      else (none, rest)
    | [] => (none, [])
  else if 0xE0 ≤ b0 ∧ b0 ≤ 0xEF then
    match rest with
    | b1 :: b2 :: rest2 =>
      if (if b0 = 0xE0 then 0xA0 ≤ b1 ∧ b1 ≤ 0xBF
          else if b0 = 0xED then 0x80 ≤ b1 ∧ b1 ≤ 0x9F
          else 0x80 ≤ b1 ∧ b1 ≤ 0xBF) ∧ 0x80 ≤ b2 ∧ b2 ≤ 0xBF then
        (some ((b0 - 0xE0) * 0x1000 + (b1 - 0x80) * 0x40 + (b2 - 0x80)), rest2)
      else (none, rest)
    | _ => (none, rest)
  else if 0xF0 ≤ b0 ∧ b0 ≤ 0xF4 then
    match rest with
    | b1 :: b2 :: b3 :: rest3 =>
      if (if b0 = 0xF0 then 0x90 ≤ b1 ∧ b1 ≤ 0xBF
          else if b0 = 0xF4 then 0x80 ≤ b1 ∧ b1 ≤ 0x8F
          else 0x80 ≤ b1 ∧ b1 ≤ 0xBF) ∧ 0x80 ≤ b2 ∧ b2 ≤ 0xBF ∧ 0x80 ≤ b3 ∧ b3 ≤ 0xBF then
        (some ((b0 - 0xF0) * 0x40000 + (b1 - 0x80) * 0x1000 + (b2 - 0x80) * 0x40 + (b3 - 0x80)),
         rest3)
      else (none, rest)
    | _ => (none, rest)
  else
    (none, rest)

/-- Model of the Python call `bytes.decode(utf-8, errors=ignore)` in
`commit_processor.py` line 117: repeatedly parse one UTF-8 sequence;
every byte at which no valid sequence starts is skipped without
producing any output and without raising.  Returns the decoded code
points. -/
def decodeUtf8Ignore : List Nat → List Nat
  | [] => []
  | b0 :: rest =>
    match h : utf8Step b0 rest with
    | (some c, rest2) => c :: decodeUtf8Ignore rest2
    | (none, rest2) => decodeUtf8Ignore rest2
termination_by bs => bs.length
decreasing_by
  all_goals
    have hle : ∀ (b : Nat) (l : List Nat), (utf8Step b l).2.length ≤ l.length := by
      intro b l
      rcases l with _ | ⟨b1, l1⟩
      · simp only [utf8Step]
        split_ifs <;> simp
      · rcases l1 with _ | ⟨b2, l2⟩
        · simp only [utf8Step]
          split_ifs <;> simp
        · rcases l2 with _ | ⟨b3, l3⟩
          · simp only [utf8Step]
            split_ifs <;> simp
          · simp only [utf8Step]
            split_ifs <;> simp <;> omega
    have h2 := hle b0 rest
    rw [h] at h2
    simp at h2 ⊢
    omega

/-- Model of the Python `str.split` on a newline applied to the
decoded text (`commit_processor.py` line 117). -/
def splitLines : List Char → List (List Char)
  | [] => [[]]
  | c :: rest =>
    if c = '\n' then
      [] :: splitLines rest
    else
      match splitLines rest with
      | [] => [[c]]
      | l :: ls => (c :: l) :: ls

/-- Whole extractor starting from the raw diff bytes
(`commit_processor.py` lines 116-135): decode with errors ignored,
split into lines, classify, truncate. -/
def processDiffBytes (bs : List Nat) : Nat × Nat × List Line :=
  processDiff (splitLines ((decodeUtf8Ignore bs).map Char.ofNat))

/-! ### Helper lemmas: truncation and counting -/

theorem truncateLines_of_le {lcs : List Line} (h : lcs.length ≤ 100) :
    truncateLines lcs = lcs := by
  unfold truncateLines
  rw [if_neg]
  omega

theorem truncateLines_of_gt {lcs : List Line} (h : 100 < lcs.length) :
    truncateLines lcs =
      lcs.take 50 ++ ⟨Kind.truncated, truncatedMsg (lcs.length - 100)⟩ ::
        lcs.drop (lcs.length - 50) := by
  unfold truncateLines
  rw [if_pos h]

theorem truncateLines_length_gt {lcs : List Line} (h : 100 < lcs.length) :
    (truncateLines lcs).length = 101 := by
  rw [truncateLines_of_gt h]
  simp
  omega

theorem truncateLines_take_gt {lcs : List Line} (h : 100 < lcs.length) :
    (truncateLines lcs).take 50 = lcs.take 50 := by
  rw [truncateLines_of_gt h, List.take_append_eq_append_take]
  have h50 : (lcs.take 50).length = 50 := by
    rw [List.length_take]
    omega
  rw [h50]
  simp [List.take_take]

theorem truncateLines_drop_gt {lcs : List Line} (h : 100 < lcs.length) :
    (truncateLines lcs).drop ((truncateLines lcs).length - 50) =
      lcs.drop (lcs.length - 50) := by
  rw [truncateLines_length_gt h, truncateLines_of_gt h, List.drop_append_eq_append_drop]
  have h50 : (lcs.take 50).length = 50 := by
    rw [List.length_take]
    omega
  rw [h50, List.drop_eq_nil_of_le (by omega)]
  simp

theorem truncateLines_length_le (lcs : List Line) : (truncateLines lcs).length ≤ 101 := by
  rcases le_or_lt lcs.length 100 with h | h
  · rw [truncateLines_of_le h]
    omega
  · rw [truncateLines_length_gt h]

theorem processLines_counts (lines : List (List Char)) :
    (processLines lines).1 =
      List.countP (fun r => r.type == Kind.add) (processLines lines).2.2 ∧
    (processLines lines).2.1 =
      List.countP (fun r => r.type == Kind.delete) (processLines lines).2.2 := by
  induction lines with
  | nil => simp [processLines]
  | cons line rest ih =>
    simp only [processLines]
    split_ifs with h1 h2 h3 <;> simp_all [List.countP_cons]

/-! ### Helper lemmas: aligner lengths -/

theorem alignVis_length_eq (dc : List Line) :
    (alignVis dc).1.length = (alignVis dc).2.length := by
  induction dc using alignVis.induct <;> simp_all [alignVis]

theorem alignHtml_length_eq (dc : List Line) :
    (alignHtml dc).1.length = (alignHtml dc).2.length := by
  induction dc using alignHtml.induct <;> simp_all [alignHtml]

theorem alignVis_length_le (dc : List Line) :
    (alignVis dc).1.length ≤ dc.length := by
  induction dc using alignVis.induct with
  | case1 => simp [alignVis]
  | case2 => simp_all [alignVis]
  | case3 l rest h1 h2 rest1 rest2 L R heq ih =>
    unfold rest2 rest1 at *
    simp_all [alignVis]
    have htw := (@List.takeWhile_sublist Line rest
      (fun x => x.type == Kind.delete)).length_le
    have hs1 : (List.takeWhile (fun x => x.type == Kind.delete) rest).length +
        (List.dropWhile (fun x => x.type == Kind.delete) rest).length = rest.length := by
      rw [← List.length_append, List.takeWhile_append_dropWhile]
    have hs2 : (List.takeWhile (fun x => x.type == Kind.add)
          (List.dropWhile (fun x => x.type == Kind.delete) rest)).length +
        (List.dropWhile (fun x => x.type == Kind.add)
          (List.dropWhile (fun x => x.type == Kind.delete) rest)).length =
        (List.dropWhile (fun x => x.type == Kind.delete) rest).length := by
      rw [← List.length_append, List.takeWhile_append_dropWhile]
    omega
  | case4 => simp_all [alignVis]
  | case5 => simp_all [alignVis]

theorem alignHtml_length_le (dc : List Line) :
    (alignHtml dc).1.length ≤ dc.length := by
  induction dc using alignHtml.induct with
  | case1 => simp [alignHtml]
  | case2 => simp_all [alignHtml]
  | case3 l rest h1 h2 rest1 rest2 L R heq ih =>
    unfold rest2 rest1 at *
    simp_all [alignHtml]
    have htw := (@List.takeWhile_sublist Line rest
      (fun x => x.type == Kind.delete)).length_le
    have hs1 : (List.takeWhile (fun x => x.type == Kind.delete) rest).length +
        (List.dropWhile (fun x => x.type == Kind.delete) rest).length = rest.length := by
      rw [← List.length_append, List.takeWhile_append_dropWhile]
    have hs2 : (List.takeWhile (fun x => x.type == Kind.add)
          (List.dropWhile (fun x => x.type == Kind.delete) rest)).length +
        (List.dropWhile (fun x => x.type == Kind.add)
          (List.dropWhile (fun x => x.type == Kind.delete) rest)).length =
        (List.dropWhile (fun x => x.type == Kind.delete) rest).length := by
      rw [← List.length_append, List.takeWhile_append_dropWhile]
    omega
  | case4 => simp_all [alignHtml]
  | case5 => simp_all [alignHtml]
  | case6 => simp_all [alignHtml]

/-! ### Claims C2 - C6 -/

/-- Claim C2, counterexample: on a diff of 101 added lines the code
reports 101 insertions, but only 100 `add` records survive
truncation, so `insertions` differs from the count of `add` records in
the retained sequence. -/
theorem claim_C2_cex :
    (processDiff (List.replicate 101 ['+', 'a'])).1 = 101 ∧
    List.countP (fun r => r.type == Kind.add)
      (processDiff (List.replicate 101 ['+', 'a'])).2.2 = 100 ∧
    (processDiff (List.replicate 101 ['+', 'a'])).1 ≠
      List.countP (fun r => r.type == Kind.add)
        (processDiff (List.replicate 101 ['+', 'a'])).2.2 := by
  decide

/-- Claim C2 (amended): `insertions` equals the number of `add`
records and `deletions` the number of `delete` records of the
pre-truncation `line_changes` sequence; the same holds of the
post-truncation `diff_content` exactly when at most 100 records were
collected, so that truncation did not fire. -/
theorem claim_C2 (lines : List (List Char)) :
    (processLines lines).1 =
      List.countP (fun r => r.type == Kind.add) (processLines lines).2.2 ∧
    (processLines lines).2.1 =
      List.countP (fun r => r.type == Kind.delete) (processLines lines).2.2 ∧
    ((processLines lines).2.2.length ≤ 100 →
      (processDiff lines).1 =
        List.countP (fun r => r.type == Kind.add) (processDiff lines).2.2 ∧
      (processDiff lines).2.1 =
        List.countP (fun r => r.type == Kind.delete) (processDiff lines).2.2) := by
  refine ⟨(processLines_counts lines).1, (processLines_counts lines).2, fun h => ?_⟩
  simp only [processDiff]
  rw [truncateLines_of_le h]
  exact ⟨(processLines_counts lines).1, (processLines_counts lines).2⟩

/-- Witness for claim C2 at a two-line diff. -/
theorem claim_C2_wit :
    (processLines [['+', 'a'], ['-', 'b']]).2.2.length ≤ 100 ∧
    (processDiff [['+', 'a'], ['-', 'b']]).1 =
      List.countP (fun r => r.type == Kind.add)
        (processDiff [['+', 'a'], ['-', 'b']]).2.2 :=
  ⟨by decide, ((claim_C2 [['+', 'a'], ['-', 'b']]).2.2 (by decide)).1⟩

/-- Claim C3, counterexample: a diff of 101 added lines leaves 101
retained records after truncation, not at most 100. -/
theorem claim_C3_cex :
    (processDiff (List.replicate 101 ['+', 'b'])).2.2.length = 101 ∧
    ¬((processDiff (List.replicate 101 ['+', 'b'])).2.2.length ≤ 100) := by
  decide

/-- Claim C3 (amended): the retained per-file record sequence after
truncation has at most 101 records — not 100: a sequence above the
threshold is replaced by 50 head records, one synthetic marker and 50
tail records — and hence either aligner produces at most 101 aligned
rows on each side; the same record bound holds for the pipeline
started from the raw diff bytes. -/
theorem claim_C3 :
    (∀ lines : List (List Char),
      (processDiff lines).2.2.length ≤ 101 ∧
      (alignVis (processDiff lines).2.2).1.length ≤ 101 ∧
      (alignVis (processDiff lines).2.2).2.length ≤ 101 ∧
      (alignHtml (processDiff lines).2.2).1.length ≤ 101 ∧
      (alignHtml (processDiff lines).2.2).2.length ≤ 101) ∧
    (∀ bs : List Nat, (processDiffBytes bs).2.2.length ≤ 101) := by
  have key : ∀ lines : List (List Char), (processDiff lines).2.2.length ≤ 101 := by
    intro lines
    simp only [processDiff]
    exact truncateLines_length_le _
  constructor
  · intro lines
    refine ⟨key lines, le_trans (alignVis_length_le _) (key lines), ?_,
      le_trans (alignHtml_length_le _) (key lines), ?_⟩
    · rw [← alignVis_length_eq]
      exact le_trans (alignVis_length_le _) (key lines)
    · rw [← alignHtml_length_eq]
      exact le_trans (alignHtml_length_le _) (key lines)
  · intro bs
    exact key _

/-- Claim C4 (confirmed): a sequence of at most 100 records is
returned unchanged; a longer one becomes its first 50 records, one
synthetic `truncated` record stating `N - 100` omitted lines, and its
last 50 records, so the result has 101 entries whose first and last 50
equal those of the original. -/
theorem claim_C4 (lcs : List Line) :
    (lcs.length ≤ 100 → truncateLines lcs = lcs) ∧
    (100 < lcs.length →
      truncateLines lcs =
          lcs.take 50 ++ ⟨Kind.truncated, truncatedMsg (lcs.length - 100)⟩ ::
            lcs.drop (lcs.length - 50) ∧
        (truncateLines lcs).take 50 = lcs.take 50 ∧
        (truncateLines lcs).drop ((truncateLines lcs).length - 50) =
          lcs.drop (lcs.length - 50) ∧
        (truncateLines lcs).length = 101) :=
  ⟨fun h => truncateLines_of_le h,
   fun h => ⟨truncateLines_of_gt h, truncateLines_take_gt h,
     truncateLines_drop_gt h, truncateLines_length_gt h⟩⟩

/-- Witness for claim C4 at a 102-record sequence. -/
theorem claim_C4_wit :
    100 < (List.replicate 102 (⟨Kind.add, ['x']⟩ : Line)).length ∧
    (truncateLines (List.replicate 102 (⟨Kind.add, ['x']⟩ : Line))).take 50 =
      (List.replicate 102 (⟨Kind.add, ['x']⟩ : Line)).take 50 ∧
    (truncateLines (List.replicate 102 (⟨Kind.add, ['x']⟩ : Line))).length = 101 :=
  ⟨by decide,
   ((claim_C4 (List.replicate 102 (⟨Kind.add, ['x']⟩ : Line))).2 (by decide)).2.1,
   ((claim_C4 (List.replicate 102 (⟨Kind.add, ['x']⟩ : Line))).2 (by decide)).2.2.2⟩

/-- Claim C5, counterexample: truncating a 102-record sequence and
truncating again gives a different result (the marker now states 1
omitted line instead of 2), so truncation is not idempotent. -/
theorem claim_C5_cex :
    truncateLines (truncateLines (List.replicate 102 (⟨Kind.add, ['x']⟩ : Line))) ≠
      truncateLines (List.replicate 102 (⟨Kind.add, ['x']⟩ : Line)) := by
  decide

/-- Claim C5 (amended): truncation is idempotent exactly up to length
101: for a sequence of at most 101 records a second truncation returns
the first truncation unchanged (for at most 100 records both are the
identity); for longer sequences idempotence fails. -/
theorem claim_C5 (s : List Line) (h : s.length ≤ 101) :
    truncateLines (truncateLines s) = truncateLines s := by
  rcases le_or_lt s.length 100 with h1 | h1
  · rw [truncateLines_of_le h1, truncateLines_of_le h1]
  · have hl : s.length = 101 := by omega
    have hT : (truncateLines s).length = 101 := truncateLines_length_gt h1
    have step := @truncateLines_of_gt (truncateLines s) (by omega)
    rw [step, truncateLines_take_gt h1, truncateLines_drop_gt h1, hT,
      truncateLines_of_gt h1, hl]

/-- Witness for claim C5 at a 101-record sequence. -/
theorem claim_C5_wit :
    (List.replicate 101 (⟨Kind.delete, ['y']⟩ : Line)).length ≤ 101 ∧
    truncateLines (truncateLines (List.replicate 101 (⟨Kind.delete, ['y']⟩ : Line))) =
      truncateLines (List.replicate 101 (⟨Kind.delete, ['y']⟩ : Line)) :=
  ⟨by decide, claim_C5 (List.replicate 101 (⟨Kind.delete, ['y']⟩ : Line)) (by decide)⟩

/-- Claim C6 (confirmed): both aligners return left and right cell
sequences of equal length on every input. -/
theorem claim_C6 (dc : List Line) :
    (alignVis dc).1.length = (alignVis dc).2.length ∧
    (alignHtml dc).1.length = (alignHtml dc).2.length :=
  ⟨alignVis_length_eq dc, alignHtml_length_eq dc⟩

/-! ### Helper lemmas: run splitting -/

theorem takeWhile_append_all {α : Type} (p : α → Bool) {l1 l2 : List α}
    (h1 : ∀ x ∈ l1, p x = true) (h2 : ∀ x, l2.head? = some x → p x = false) :
    (l1 ++ l2).takeWhile p = l1 := by
  induction l1 with
  | nil =>
    cases l2 with
    | nil => simp
    | cons y ys => simp [List.takeWhile_cons, h2 y rfl]
  | cons x xs ih =>
    have hx : p x = true := h1 x (List.mem_cons_self x xs)
    simp only [List.cons_append, List.takeWhile_cons, hx, if_true]
    rw [ih (fun a ha => h1 a (List.mem_cons_of_mem x ha))]

theorem dropWhile_append_all {α : Type} (p : α → Bool) {l1 l2 : List α}
    (h1 : ∀ x ∈ l1, p x = true) (h2 : ∀ x, l2.head? = some x → p x = false) :
    (l1 ++ l2).dropWhile p = l2 := by
  induction l1 with
  | nil =>
    cases l2 with
    | nil => simp
    | cons y ys => simp [List.dropWhile_cons, h2 y rfl]
  | cons x xs ih =>
    have hx : p x = true := h1 x (List.mem_cons_self x xs)
    simp only [List.cons_append, List.dropWhile_cons, hx, if_true]
    exact ih (fun a ha => h1 a (List.mem_cons_of_mem x ha))

/-! ### Claim C7 -/

/-- Claim C7 (confirmed): on reaching a `delete` record the aligner
consumes the maximal `delete` run (length `d`) and the following
maximal `add` run (length `a`, possibly 0) and emits `max d a`
positions pairing the i-th delete on the left with the i-th add on the
right, padding with `empty` cells, then continues past both runs. -/
theorem claim_C7 (ds as rest : List Line)
    (hne : ds ≠ [])
    (hds : ∀ r ∈ ds, r.type = Kind.delete)
    (has : ∀ r ∈ as, r.type = Kind.add)
    (hmid : ((as ++ rest).head?.all fun r => !(r.type == Kind.delete)) = true)
    (hafter : (rest.head?.all fun r => !(r.type == Kind.add)) = true) :
    alignVis (ds ++ as ++ rest) =
      ((List.range (max ds.length as.length)).map (fun j => ds.getD j emptyLine) ++
         (alignVis rest).1,
       (List.range (max ds.length as.length)).map (fun j => as.getD j emptyLine) ++
         (alignVis rest).2) := by
  obtain ⟨d, ds', rfl⟩ : ∃ d ds', ds = d :: ds' := by
    cases ds with
    | nil => exact absurd rfl hne
    | cons d ds' => exact ⟨d, ds', rfl⟩
  have hd : d.type = Kind.delete := hds d (List.mem_cons_self d ds')
  have hmid' : ∀ x, (as ++ rest).head? = some x → (x.type == Kind.delete) = false := by
    intro x hx
    rw [hx] at hmid
    simpa using hmid
  have hafter' : ∀ x, rest.head? = some x → (x.type == Kind.add) = false := by
    intro x hx
    rw [hx] at hafter
    simpa using hafter
  have htw1 : (ds' ++ (as ++ rest)).takeWhile (fun x => x.type == Kind.delete) = ds' :=
    takeWhile_append_all _ (fun a ha => by
      simp [hds a (List.mem_cons_of_mem d ha)]) hmid'
  have hdw1 : (ds' ++ (as ++ rest)).dropWhile (fun x => x.type == Kind.delete) = as ++ rest :=
    dropWhile_append_all _ (fun a ha => by
      simp [hds a (List.mem_cons_of_mem d ha)]) hmid'
  have htw2 : (as ++ rest).takeWhile (fun x => x.type == Kind.add) = as :=
    takeWhile_append_all _ (fun a ha => by simp [has a ha]) hafter'
  have hdw2 : (as ++ rest).dropWhile (fun x => x.type == Kind.add) = rest :=
    dropWhile_append_all _ (fun a ha => by simp [has a ha]) hafter'
  rcases hAR : alignVis rest with ⟨L, R⟩
  have hshape : ((d :: ds') ++ as ++ rest) = d :: (ds' ++ (as ++ rest)) := by simp
  rw [hshape]
  rw [alignVis]
  rw [if_neg (by rw [hd]; intro hcon; cases hcon), if_pos hd]
  simp only [htw1, hdw1, htw2, hdw2, hAR]

/-- Witness for claim C7: the pairing example of the specification. -/
theorem claim_C7_wit :
    ([⟨Kind.delete, ['a']⟩, ⟨Kind.delete, ['b']⟩] : List Line) ≠ [] ∧
    alignVis [⟨Kind.delete, ['a']⟩, ⟨Kind.delete, ['b']⟩, ⟨Kind.add, ['x']⟩] =
      ([⟨Kind.delete, ['a']⟩, ⟨Kind.delete, ['b']⟩], [⟨Kind.add, ['x']⟩, emptyLine]) := by
  constructor
  · decide
  · exact (claim_C7 [⟨Kind.delete, ['a']⟩, ⟨Kind.delete, ['b']⟩] [⟨Kind.add, ['x']⟩] []
      (by decide) (by decide) (by decide) (by decide) (by decide)).trans
      (by simp [alignVis, List.range_succ, emptyLine])

/-! ### Claim C10 -/

theorem alignHtml_eq_alignVis (dc : List Line)
    (h : ∀ r ∈ dc, r.type ≠ Kind.truncated) : alignHtml dc = alignVis dc := by
  induction dc using alignHtml.induct with
  | case1 => simp [alignHtml, alignVis]
  | case2 l rest h1 L R heq ih =>
    have ih' := ih (fun r hr => h r (List.mem_cons_of_mem l hr))
    rw [alignHtml, alignVis, if_pos h1, if_pos h1, ← ih']
  | case3 l rest h1 h2 rest1 rest2 L R heq ih =>
    have hsub : ∀ r ∈ rest2, r ∈ rest := by
      intro r hr
      unfold rest2 rest1 at hr
      exact (List.dropWhile_sublist _).subset ((List.dropWhile_sublist _).subset hr)
    have ih' := ih (fun r hr => h r (List.mem_cons_of_mem l (hsub r hr)))
    unfold rest2 rest1 at ih'
    rw [alignHtml, alignVis, if_neg h1, if_neg h1, if_pos h2, if_pos h2]
    dsimp only
    rw [← ih']
  | case4 l rest h1 h2 h3 L R heq ih =>
    have ih' := ih (fun r hr => h r (List.mem_cons_of_mem l hr))
    rw [alignHtml, alignVis, if_neg h1, if_neg h1, if_neg h2, if_neg h2,
      if_pos h3, if_pos h3, ← ih']
  | case5 l rest h1 h2 h3 h4 L R heq ih =>
    exact absurd h4 (h l (List.mem_cons_self l rest))
  | case6 l rest h1 h2 h3 h4 L R heq ih =>
    have ih' := ih (fun r hr => h r (List.mem_cons_of_mem l hr))
    rw [alignHtml, alignVis, if_neg h1, if_neg h1, if_neg h2, if_neg h2,
      if_neg h3, if_neg h3, if_neg h4, ← ih']

/-- Claim C10, counterexample: on a single `truncated` record the two
aligners disagree: the HTML aligner keeps the `truncated` kind on both
sides while the visualizer aligner demotes it to `context`. -/
theorem claim_C10_cex :
    alignHtml [⟨Kind.truncated, ['t']⟩] ≠ alignVis [⟨Kind.truncated, ['t']⟩] ∧
    alignHtml [⟨Kind.truncated, ['t']⟩] =
      ([⟨Kind.truncated, ['t']⟩], [⟨Kind.truncated, ['t']⟩]) ∧
    alignVis [⟨Kind.truncated, ['t']⟩] =
      ([⟨Kind.context, ['t']⟩], [⟨Kind.context, ['t']⟩]) := by
  refine ⟨?_, by simp [alignHtml], by simp [alignVis]⟩
  simp [alignHtml, alignVis]

/-- Claim C10 (amended): the two aligner implementations return
identical left and right cell sequences on every input containing no
`truncated` record; on `truncated` records they differ in the emitted
cell kind (`truncated` for the HTML renderer, `context` for the
visualizer). -/
theorem claim_C10 (dc : List Line) (h : ∀ r ∈ dc, r.type ≠ Kind.truncated) :
    alignHtml dc = alignVis dc :=
  alignHtml_eq_alignVis dc h

/-- Witness for claim C10 on a mixed truncation-free input. -/
theorem claim_C10_wit :
    (∀ r ∈ ([⟨Kind.hunk, ['@', '@']⟩, ⟨Kind.delete, ['d']⟩, ⟨Kind.add, ['n']⟩] : List Line),
      r.type ≠ Kind.truncated) ∧
    alignHtml [⟨Kind.hunk, ['@', '@']⟩, ⟨Kind.delete, ['d']⟩, ⟨Kind.add, ['n']⟩] =
      alignVis [⟨Kind.hunk, ['@', '@']⟩, ⟨Kind.delete, ['d']⟩, ⟨Kind.add, ['n']⟩] :=
  ⟨by decide,
   claim_C10 [⟨Kind.hunk, ['@', '@']⟩, ⟨Kind.delete, ['d']⟩, ⟨Kind.add, ['n']⟩] (by decide)⟩

/-! ### Claim C9 -/

theorem processLines_cons (line : List Char) (rest : List (List Char)) :
    processLines (line :: rest) =
      if ['+'].isPrefixOf line && !(['+', '+', '+'].isPrefixOf line) then
        ((processLines rest).1 + 1, (processLines rest).2.1,
          ⟨Kind.add, line.drop 1⟩ :: (processLines rest).2.2)
      else if ['-'].isPrefixOf line && !(['-', '-', '-'].isPrefixOf line) then
        ((processLines rest).1, (processLines rest).2.1 + 1,
          ⟨Kind.delete, line.drop 1⟩ :: (processLines rest).2.2)
      else if ['@', '@'].isPrefixOf line then
        ((processLines rest).1, (processLines rest).2.1,
          ⟨Kind.hunk, line⟩ :: (processLines rest).2.2)
      else processLines rest := rfl

/-- Claim C9, counterexample: the line of four characters
plus-plus-plus-x is not exactly the three-character file-header marker
and starts with a plus, yet the extractor drops it (the code excludes
every line starting with three pluses, not only the exact marker). -/
theorem claim_C9_cex :
    processLines [['+', '+', '+', 'x']] = (0, 0, []) ∧
    ['+'].isPrefixOf ['+', '+', '+', 'x'] = true ∧
    (['+', '+', '+', 'x'] : List Char) ≠ ['+', '+', '+'] ∧
    ((0, 0, ([] : List Line)) : Nat × Nat × List Line) ≠
      (1, 0, [⟨Kind.add, ['+', '+', 'x']⟩]) := by
  decide

/-- Claim C9 (amended): a physical line is classified `add` (content:
the line with its first character removed, insertions incremented)
exactly when it starts with a plus and does not start with three
pluses, and `delete` exactly when it starts with a minus and does not
start with three minuses. -/
theorem claim_C9 (line : List Char) (rest : List (List Char)) :
    (processLines (line :: rest) =
        ((processLines rest).1 + 1, (processLines rest).2.1,
          ⟨Kind.add, line.drop 1⟩ :: (processLines rest).2.2)
      ↔ (['+'].isPrefixOf line = true ∧ ['+', '+', '+'].isPrefixOf line = false)) ∧
    (processLines (line :: rest) =
        ((processLines rest).1, (processLines rest).2.1 + 1,
          ⟨Kind.delete, line.drop 1⟩ :: (processLines rest).2.2)
      ↔ (['-'].isPrefixOf line = true ∧ ['-', '-', '-'].isPrefixOf line = false)) := by
  have e := processLines_cons line rest
  by_cases h1 : (['+'].isPrefixOf line && !(['+', '+', '+'].isPrefixOf line)) = true
  · rw [if_pos h1] at e
    rw [Bool.and_eq_true, Bool.not_eq_true'] at h1
    have hminus : ['-'].isPrefixOf line = false := by
      cases line with
      | nil => simp [List.isPrefixOf] at h1
      | cons c cs =>
        have hc : c = '+' := by
          have h := h1.1
          simp [List.isPrefixOf] at h
          first
          | exact h
          | exact h.symm
        simp [List.isPrefixOf, hc]
    refine ⟨⟨fun _ => h1, fun _ => e⟩, ⟨fun hEq => ?_, fun hc => ?_⟩⟩
    · rw [e] at hEq
      have h2 := congrArg (fun t => t.2.1) hEq
      simp at h2
    · rw [hminus] at hc
      simp at hc
  · have h1f : (['+'].isPrefixOf line && !(['+', '+', '+'].isPrefixOf line)) = false := by
      rwa [Bool.not_eq_true] at h1
    rw [if_neg h1] at e
    have haddRhs : ¬(['+'].isPrefixOf line = true ∧ ['+', '+', '+'].isPrefixOf line = false) := by
      intro hc
      rw [Bool.and_eq_true, Bool.not_eq_true'] at h1
      exact h1 hc
    by_cases h2 : (['-'].isPrefixOf line && !(['-', '-', '-'].isPrefixOf line)) = true
    · rw [if_pos h2] at e
      rw [Bool.and_eq_true, Bool.not_eq_true'] at h2
      refine ⟨⟨fun hEq => ?_, fun hc => absurd hc haddRhs⟩, ⟨fun _ => h2, fun _ => e⟩⟩
      rw [e] at hEq
      have h3 := congrArg (fun t => t.1) hEq
      simp at h3
    · have hdelRhs : ¬(['-'].isPrefixOf line = true ∧ ['-', '-', '-'].isPrefixOf line = false) := by
        intro hc
        rw [Bool.and_eq_true, Bool.not_eq_true'] at h2
        exact h2 hc
      rw [if_neg h2] at e
      by_cases h3 : (['@', '@'].isPrefixOf line) = true
      · rw [if_pos h3] at e
        refine ⟨⟨fun hEq => ?_, fun hc => absurd hc haddRhs⟩,
          ⟨fun hEq => ?_, fun hc => absurd hc hdelRhs⟩⟩
        · rw [e] at hEq
          have h4 := congrArg (fun t => t.1) hEq
          simp at h4
        · rw [e] at hEq
          have h4 := congrArg (fun t => t.2.1) hEq
          simp at h4
      · rw [if_neg h3] at e
        refine ⟨⟨fun hEq => ?_, fun hc => absurd hc haddRhs⟩,
          ⟨fun hEq => ?_, fun hc => absurd hc hdelRhs⟩⟩
        · rw [e] at hEq
          have h4 := congrArg (fun t => t.1) hEq
          simp at h4
        · rw [e] at hEq
          have h4 := congrArg (fun t => t.2.1) hEq
          simp at h4

/-! ### Claim C8 -/

theorem utf8Step_some_valid {b0 c : Nat} {rest rest2 : List Nat}
    (h : utf8Step b0 rest = (some c, rest2)) :
    c < 0x110000 ∧ ¬(0xD800 ≤ c ∧ c ≤ 0xDFFF) := by
  rcases rest with _ | ⟨b1, l1⟩
  · simp only [utf8Step] at h
    split_ifs at h <;> simp_all <;> omega
  · rcases l1 with _ | ⟨b2, l2⟩
    · simp only [utf8Step] at h
      split_ifs at h <;> simp_all <;> omega
    · rcases l2 with _ | ⟨b3, l3⟩
      · simp only [utf8Step] at h
        split_ifs at h <;> simp_all <;> omega
      · simp only [utf8Step] at h
        split_ifs at h <;> simp_all <;> omega

theorem decodeUtf8Ignore_valid (bs : List Nat) :
    ∀ c ∈ decodeUtf8Ignore bs, c < 0x110000 ∧ ¬(0xD800 ≤ c ∧ c ≤ 0xDFFF) := by
  induction bs using decodeUtf8Ignore.induct with
  | case1 =>
    intro c hc
    rw [decodeUtf8Ignore] at hc
    cases hc
  | case2 b0 rest c rest2 h ih =>
    intro x hx
    rw [decodeUtf8Ignore, h] at hx
    rcases List.mem_cons.mp hx with hx1 | hx2
    · subst hx1
      exact utf8Step_some_valid h
    · exact ih x hx2
  | case3 b0 rest rest2 h ih =>
    intro x hx
    rw [decodeUtf8Ignore, h] at hx
    exact ih x hx

theorem decodeUtf8Ignore_skip_ff (bs : List Nat) :
    decodeUtf8Ignore (0xFF :: bs) = decodeUtf8Ignore bs := by
  have hstep : utf8Step 0xFF bs = (none, bs) := by
    rcases bs with _ | ⟨b1, l1⟩ <;> simp [utf8Step]
  rw [decodeUtf8Ignore, hstep]

theorem processDiffBytes_skip_ff (bs : List Nat) :
    processDiffBytes (0xFF :: bs) = processDiffBytes bs := by
  unfold processDiffBytes
  rw [decodeUtf8Ignore_skip_ff]

/-- Claim C8, counterexample: the invalid byte 255 is not replaced by
the substitution character U+FFFD; it is dropped, producing the empty
decoded sequence. -/
theorem claim_C8_cex :
    decodeUtf8Ignore [0xFF] = [] ∧ decodeUtf8Ignore [0xFF] ≠ [0xFFFD] := by
  have h : decodeUtf8Ignore [0xFF] = [] := by
    rw [decodeUtf8Ignore_skip_ff, decodeUtf8Ignore]
  exact ⟨h, by rw [h]; simp⟩

/-- Claim C8 (amended): extraction never raises: decoding is total,
every decoded code point is a valid Unicode scalar value (so the
extractor always returns a well-formed record sequence), and an
invalid byte is dropped with processing continuing, rather than being
replaced by a substitution character. -/
theorem claim_C8 :
    (∀ bs : List Nat, ∀ c ∈ decodeUtf8Ignore bs,
      c < 0x110000 ∧ ¬(0xD800 ≤ c ∧ c ≤ 0xDFFF)) ∧
    (∀ bs : List Nat, decodeUtf8Ignore (0xFF :: bs) = decodeUtf8Ignore bs) ∧
    (∀ bs : List Nat, processDiffBytes (0xFF :: bs) = processDiffBytes bs) :=
  ⟨decodeUtf8Ignore_valid, decodeUtf8Ignore_skip_ff, processDiffBytes_skip_ff⟩

/-- Witness for claim C8 at the one-byte input 97. -/
theorem claim_C8_wit :
    0x61 ∈ decodeUtf8Ignore [0x61] ∧
    (0x61 < 0x110000 ∧ ¬(0xD800 ≤ 0x61 ∧ 0x61 ≤ 0xDFFF)) :=
  ⟨by rw [decodeUtf8Ignore]; simp [utf8Step, decodeUtf8Ignore],
   claim_C8.1 [0x61] 0x61 (by rw [decodeUtf8Ignore]; simp [utf8Step, decodeUtf8Ignore])⟩

/-! ### Helper lemmas: number traces -/

theorem leftNums_cons_some (a : Nat) (o : Option Nat) (t : List (Option Nat × Option Nat)) :
    leftNums ((some a, o) :: t) = a :: leftNums t := rfl

theorem leftNums_cons_none (o : Option Nat) (t : List (Option Nat × Option Nat)) :
    leftNums ((none, o) :: t) = leftNums t := rfl

theorem rightNums_cons_some (a : Nat) (o : Option Nat) (t : List (Option Nat × Option Nat)) :
    rightNums ((o, some a) :: t) = a :: rightNums t := rfl

theorem rightNums_cons_none (o : Option Nat) (t : List (Option Nat × Option Nat)) :
    rightNums ((o, none) :: t) = rightNums t := rfl

theorem stepByOne_cons_of (a : Nat) (l : List Nat) (h1 : stepByOne l = true)
    (h2 : ∀ b, l.head? = some b → b = a + 1) : stepByOne (a :: l) = true := by
  cases l with
  | nil => rfl
  | cons b t =>
    have hb := h2 b rfl
    subst hb
    simp [stepByOne, h1]

theorem strictIncr_cons_of (a : Nat) (l : List Nat) (h1 : strictIncr l = true)
    (h2 : ∀ b, l.head? = some b → a < b) : strictIncr (a :: l) = true := by
  cases l with
  | nil => rfl
  | cons b t =>
    have hb := h2 b rfl
    simp [strictIncr, hb, h1]

/-! ### Helper lemmas: cell kinds in aligned output -/

theorem alignVis_left_no_add (dc : List Line) :
    ∀ c ∈ (alignVis dc).1, c.type ≠ Kind.add := by
  induction dc using alignVis.induct with
  | case1 =>
    intro c hc
    rw [alignVis] at hc
    cases hc
  | case2 l rest h1 L R heq ih =>
    intro c hc
    rw [alignVis, if_pos h1] at hc
    dsimp only at hc
    rw [heq] at hc
    rcases List.mem_cons.mp hc with hx | hx
    · rw [hx]
      simp [h1]
    · exact ih c (by rw [heq]; exact hx)
  | case3 l rest h1 h2 rest1 rest2 L R heq ih =>
    unfold rest2 rest1 at heq ih
    intro c hc
    rw [alignVis, if_neg h1, if_pos h2] at hc
    dsimp only at hc
    rw [heq] at hc
    dsimp only at hc
    rcases List.mem_append.mp hc with hc1 | hc2
    · rcases List.mem_map.mp hc1 with ⟨j, _, rfl⟩
      rcases lt_or_ge j (l :: (rest.takeWhile fun x => x.type == Kind.delete)).length with hlt | hge
      · rw [List.getD_eq_getElem _ _ hlt]
        have hmem := List.getElem_mem hlt
        rcases List.mem_cons.mp hmem with hx | hx
        · rw [hx]
          simp [h2]
        · have hp := List.mem_takeWhile_imp hx
          simp only [beq_iff_eq] at hp
          simp [hp]
      · rw [List.getD_eq_default _ _ hge]
        simp [emptyLine]
    · exact ih c (by rw [heq]; exact hc2)
  | case4 l rest h1 h2 h3 L R heq ih =>
    intro c hc
    rw [alignVis, if_neg h1, if_neg h2, if_pos h3] at hc
    dsimp only at hc
    rw [heq] at hc
    rcases List.mem_cons.mp hc with hx | hx
    · rw [hx]
      simp [emptyLine]
    · exact ih c (by rw [heq]; exact hx)
  | case5 l rest h1 h2 h3 L R heq ih =>
    intro c hc
    rw [alignVis, if_neg h1, if_neg h2, if_neg h3] at hc
    dsimp only at hc
    rw [heq] at hc
    rcases List.mem_cons.mp hc with hx | hx
    · rw [hx]
      simp
    · exact ih c (by rw [heq]; exact hx)

theorem alignVis_right_no_del (dc : List Line) :
    ∀ c ∈ (alignVis dc).2, c.type ≠ Kind.delete := by
  induction dc using alignVis.induct with
  | case1 =>
    intro c hc
    rw [alignVis] at hc
    cases hc
  | case2 l rest h1 L R heq ih =>
    intro c hc
    rw [alignVis, if_pos h1] at hc
    dsimp only at hc
    rw [heq] at hc
    rcases List.mem_cons.mp hc with hx | hx
    · rw [hx]
      simp [h1]
    · exact ih c (by rw [heq]; exact hx)
  | case3 l rest h1 h2 rest1 rest2 L R heq ih =>
    unfold rest2 rest1 at heq ih
    intro c hc
    rw [alignVis, if_neg h1, if_pos h2] at hc
    dsimp only at hc
    rw [heq] at hc
    dsimp only at hc
    rcases List.mem_append.mp hc with hc1 | hc2
    · rcases List.mem_map.mp hc1 with ⟨j, _, rfl⟩
      rcases lt_or_ge j ((rest.dropWhile fun x => x.type == Kind.delete).takeWhile
          fun x => x.type == Kind.add).length with hlt | hge
      · rw [List.getD_eq_getElem _ _ hlt]
        have hmem := List.getElem_mem hlt
        have hp := List.mem_takeWhile_imp hmem
        simp only [beq_iff_eq] at hp
        simp [hp]
      · rw [List.getD_eq_default _ _ hge]
        simp [emptyLine]
    · exact ih c (by rw [heq]; exact hc2)
  | case4 l rest h1 h2 h3 L R heq ih =>
    intro c hc
    rw [alignVis, if_neg h1, if_neg h2, if_pos h3] at hc
    dsimp only at hc
    rw [heq] at hc
    rcases List.mem_cons.mp hc with hx | hx
    · rw [hx]
      simp [h3]
    · exact ih c (by rw [heq]; exact hx)
  | case5 l rest h1 h2 h3 L R heq ih =>
    intro c hc
    rw [alignVis, if_neg h1, if_neg h2, if_neg h3] at hc
    dsimp only at hc
    rw [heq] at hc
    rcases List.mem_cons.mp hc with hx | hx
    · rw [hx]
      simp
    · exact ih c (by rw [heq]; exact hx)

theorem htmlNumberRows_trace (rows : List (Line × Line)) :
    ∀ ln rn : Nat,
      (stepByOne (leftNums (htmlNumberRows rows ln rn)) = true ∧
        ∀ b, (leftNums (htmlNumberRows rows ln rn)).head? = some b → b = ln) ∧
      (stepByOne (rightNums (htmlNumberRows rows ln rn)) = true ∧
        ∀ b, (rightNums (htmlNumberRows rows ln rn)).head? = some b → b = rn) := by
  induction rows with
  | nil =>
    intro ln rn
    simp [htmlNumberRows, leftNums, rightNums, stepByOne]
  | cons p rest ih =>
    rcases p with ⟨l, r⟩
    intro ln rn
    by_cases hh : l.type = Kind.hunk ∨ r.type = Kind.hunk
    · rw [htmlNumberRows, if_pos hh, leftNums_cons_none, rightNums_cons_none]
      exact ih ln rn
    · rw [htmlNumberRows, if_neg hh]
      dsimp only
      constructor
      · by_cases hl : l.type = Kind.empty
        · have hcond : ¬(l.type ≠ Kind.empty) := by simp [hl]
          simp only [if_neg hcond]
          rw [leftNums_cons_none]
          exact (ih ln _).1
        · simp only [if_pos (show l.type ≠ Kind.empty from hl)]
          rw [leftNums_cons_some]
          refine ⟨stepByOne_cons_of _ _ (ih (ln + 1) _).1.1
            (fun b hb => (ih (ln + 1) _).1.2 b hb), ?_⟩
          intro b hb
          exact (Option.some.inj hb).symm
      · by_cases hr : r.type = Kind.empty
        · have hcond : ¬(r.type ≠ Kind.empty) := by simp [hr]
          simp only [if_neg hcond]
          rw [rightNums_cons_none]
          exact (ih _ rn).2
        · simp only [if_pos (show r.type ≠ Kind.empty from hr)]
          rw [rightNums_cons_some]
          refine ⟨stepByOne_cons_of _ _ (ih _ (rn + 1)).2.1
            (fun b hb => (ih _ (rn + 1)).2.2 b hb), ?_⟩
          intro b hb
          exact (Option.some.inj hb).symm

theorem visNumberRows_trace (rows : List (Line × Line)) :
    ∀ ln rn : Nat,
      ((∀ p ∈ rows, p.1.type ≠ Kind.add) →
        strictIncr (leftNums (visNumberRows rows ln rn)) = true ∧
        ∀ b ∈ leftNums (visNumberRows rows ln rn), ln ≤ b) ∧
      ((∀ p ∈ rows, p.2.type ≠ Kind.delete) →
        strictIncr (rightNums (visNumberRows rows ln rn)) = true ∧
        ∀ b ∈ rightNums (visNumberRows rows ln rn), rn ≤ b) := by
  induction rows with
  | nil =>
    intro ln rn
    simp [visNumberRows, leftNums, rightNums, strictIncr]
  | cons p rest ih =>
    rcases p with ⟨l, r⟩
    intro ln rn
    constructor
    · intro hno
      have hnoRest : ∀ q ∈ rest, q.1.type ≠ Kind.add :=
        fun q hq => hno q (List.mem_cons_of_mem _ hq)
      have hlAdd : l.type ≠ Kind.add := hno (l, r) (List.mem_cons_self _ _)
      rw [visNumberRows]
      by_cases hl : l.type = Kind.empty
      · have hc1 : ¬(l.type ≠ Kind.empty ∧ l.type ≠ Kind.add) := by simp [hl]
        simp only [if_pos hl, if_neg hc1]
        rw [leftNums_cons_none]
        exact (ih ln _).1 hnoRest
      · have hc1 : l.type ≠ Kind.empty ∧ l.type ≠ Kind.add := ⟨hl, hlAdd⟩
        simp only [if_neg hl, if_pos hc1]
        by_cases hk : l.type = Kind.hunk
        · simp only [if_pos hk]
          rw [leftNums_cons_none]
          refine ⟨((ih (ln + 1) _).1 hnoRest).1, ?_⟩
          intro b hb
          have := ((ih (ln + 1) _).1 hnoRest).2 b hb
          omega
        · simp only [if_neg hk]
          rw [leftNums_cons_some]
          refine ⟨strictIncr_cons_of _ _ ((ih (ln + 1) _).1 hnoRest).1 ?_, ?_⟩
          · intro b hb
            have := ((ih (ln + 1) _).1 hnoRest).2 b (List.mem_of_mem_head? hb)
            omega
          · intro b hb
            rcases List.mem_cons.mp hb with rfl | hb2
            · exact le_refl _
            · have := ((ih (ln + 1) _).1 hnoRest).2 b hb2
              omega
    · intro hno
      have hnoRest : ∀ q ∈ rest, q.2.type ≠ Kind.delete :=
        fun q hq => hno q (List.mem_cons_of_mem _ hq)
      have hrDel : r.type ≠ Kind.delete := hno (l, r) (List.mem_cons_self _ _)
      rw [visNumberRows]
      by_cases hr : r.type = Kind.empty
      · have hc1 : ¬(r.type ≠ Kind.empty ∧ r.type ≠ Kind.delete) := by simp [hr]
        simp only [if_pos hr, if_neg hc1]
        rw [rightNums_cons_none]
        exact (ih _ rn).2 hnoRest
      · have hc1 : r.type ≠ Kind.empty ∧ r.type ≠ Kind.delete := ⟨hr, hrDel⟩
        simp only [if_neg hr, if_pos hc1]
        by_cases hk : r.type = Kind.hunk
        · simp only [if_pos hk]
          rw [rightNums_cons_none]
          refine ⟨((ih _ (rn + 1)).2 hnoRest).1, ?_⟩
          intro b hb
          have := ((ih _ (rn + 1)).2 hnoRest).2 b hb
          omega
        · simp only [if_neg hk]
          rw [rightNums_cons_some]
          refine ⟨strictIncr_cons_of _ _ ((ih _ (rn + 1)).2 hnoRest).1 ?_, ?_⟩
          · intro b hb
            have := ((ih _ (rn + 1)).2 hnoRest).2 b (List.mem_of_mem_head? hb)
            omega
          · intro b hb
            rcases List.mem_cons.mp hb with rfl | hb2
            · exact le_refl _
            · have := ((ih _ (rn + 1)).2 hnoRest).2 b hb2
              omega

/-! ### Claim C1 -/

/-- Claim C1, counterexample: for the aligned rows of the records
delete(a), hunk, delete(b) the visualizer displays the left line
numbers 1 and then 3 — the hunk cell advanced the left counter — so
the displayed numbers do not increase by exactly 1 each time a number
appears. -/
theorem claim_C1_cex :
    leftNums (visNumberRows (visRows
      [⟨Kind.delete, ['a']⟩, ⟨Kind.hunk, ['@', '@']⟩, ⟨Kind.delete, ['b']⟩]) 1 1) = [1, 3] ∧
    stepByOne [1, 3] = false := by
  constructor
  · have h : alignVis [⟨Kind.delete, ['a']⟩, ⟨Kind.hunk, ['@', '@']⟩, ⟨Kind.delete, ['b']⟩] =
        ([⟨Kind.delete, ['a']⟩, ⟨Kind.hunk, ['@', '@']⟩, ⟨Kind.delete, ['b']⟩],
         [emptyLine, ⟨Kind.hunk, ['@', '@']⟩, emptyLine]) := by
      simp [alignVis, List.range_succ, emptyLine]
    simp only [visRows, h]
    decide
  · decide

/-- Claim C1 (amended): in the image renderer the left counter
advances after any left cell that is neither `empty` nor `add` — in
particular after `hunk` cells — and the right counter after any right
cell neither `empty` nor `delete`, so the displayed numbers on each
side are strictly increasing but may skip across hunk rows; in the
HTML renderer each side advances its counter exactly when it displays
a number (any non-`empty` cell of a non-hunk row, including
`truncated` cells), so its displayed numbers increase by exactly 1
each time a number appears. -/
theorem claim_C1 :
    (∀ (dc : List Line) (ln rn : Nat),
      strictIncr (leftNums (visNumberRows (visRows dc) ln rn)) = true ∧
      strictIncr (rightNums (visNumberRows (visRows dc) ln rn)) = true) ∧
    (∀ (rows : List (Line × Line)) (ln rn : Nat),
      stepByOne (leftNums (htmlNumberRows rows ln rn)) = true ∧
      stepByOne (rightNums (htmlNumberRows rows ln rn)) = true) := by
  constructor
  · intro dc ln rn
    have hL : ∀ p ∈ visRows dc, p.1.type ≠ Kind.add := by
      intro p hp
      have hz : p ∈ (alignVis dc).1.zip (alignVis dc).2 :=
        List.mem_of_mem_take (by simpa [visRows] using hp)
      rcases p with ⟨a, b⟩
      exact alignVis_left_no_add dc a (List.of_mem_zip hz).1
    have hR : ∀ p ∈ visRows dc, p.2.type ≠ Kind.delete := by
      intro p hp
      have hz : p ∈ (alignVis dc).1.zip (alignVis dc).2 :=
        List.mem_of_mem_take (by simpa [visRows] using hp)
      rcases p with ⟨a, b⟩
      exact alignVis_right_no_del dc b (List.of_mem_zip hz).2
    exact ⟨((visNumberRows_trace _ ln rn).1 hL).1, ((visNumberRows_trace _ ln rn).2 hR).1⟩
  · intro rows ln rn
    exact ⟨(htmlNumberRows_trace rows ln rn).1.1, (htmlNumberRows_trace rows ln rn).2.1⟩

end GitLogDoc
